import Mathlib

/-!
Verification of the price-tracking core of the Shopping repository
(`src/unnamed/part_000`): price-string parsing, price-history
reconciliation, derived metrics (24h price drop, best offer, price-change
indicator), the refresh-all orchestration, and the affiliate-URL
transform.

Conventions of the shallow embedding:
* JavaScript numbers produced by `parseFloat` and compared with `<` /
  `===` are modelled by `JVal`: `nan`, positive and negative infinity, and
  exact rational values (double rounding is abstracted to exact rationals).
* ISO timestamp strings are modelled by their epoch-millisecond value
  (`Int`), since the code only ever uses `new Date(iso).getTime()`.
* JavaScript `string | null` fields are `Option String`; `undefined`
  coming from a missing last history entry is modelled by matching on
  `List.getLast?` directly.
* Promise.allSettled outcomes are a `SettledResult` list, one per product.
-/

namespace Shopping

/-- Model of a JavaScript number as used by the price code: `NaN`,
`Infinity`, `-Infinity`, or an exact rational value. -/
inductive JVal where
  | nan : JVal
  | posinf : JVal
  | neginf : JVal
  | num (q : ℚ) : JVal
deriving DecidableEq

/-- JavaScript `<` on numbers: false whenever either side is `NaN`;
`-Infinity` below every non-`NaN` value, `Infinity` above. -/
def JVal.lt : JVal → JVal → Bool
  | .nan, _ => false
  | _, .nan => false
  | .neginf, .neginf => false
  | .neginf, _ => true
  | _, .neginf => false
  | .posinf, _ => false
  | .num _, .posinf => true
  | .num a, .num b => decide (a < b)

/-- JavaScript `===` on numbers: false whenever either side is `NaN`. -/
def JVal.eqb : JVal → JVal → Bool
  | .nan, _ => false
  | _, .nan => false
  | .posinf, .posinf => true
  | .neginf, .neginf => true
  | .num a, .num b => decide (a = b)
  | _, _ => false

/-- JavaScript subtraction on numbers (used for the price-change delta). -/
def JVal.sub : JVal → JVal → JVal
  | .nan, _ => .nan
  | _, .nan => .nan
  | .posinf, .posinf => .nan
  | .posinf, _ => .posinf
  | .neginf, .neginf => .nan
  | .neginf, _ => .neginf
  | .num _, .posinf => .neginf
  | .num _, .neginf => .posinf
  | .num a, .num b => .num (a - b)

/-- Numeric value of a decimal digit character. -/
def digitVal (c : Char) : ℕ := c.toNat - '0'.toNat

/-- Decimal reading of a digit-character list, most significant first
(the standard base-10 left fold). -/
def natOfDigits (cs : List Char) : ℕ :=
  cs.foldl (fun a c => 10 * a + digitVal c) 0

/-- Optional leading sign: `+` is consumed, `-` is consumed and
remembered, anything else leaves the input untouched. -/
def splitSign : List Char → Bool × List Char
  | [] => (false, [])
  | c :: t => if c = '+' then (false, t) else if c = '-' then (true, t) else (false, c :: t)

/-- Exponent part accepted by JS `parseFloat` at the given position:
`e`/`E`, optional sign, digits.  An `e` not followed by at least one
digit contributes exponent 0 (it is ignored, as in JS). -/
def parseExponent (cs : List Char) : ℤ :=
  match cs with
  | c :: rest =>
    if c = 'e' ∨ c = 'E' then
      let signedRest := splitSign rest
      let ds := signedRest.2.takeWhile Char.isDigit
      if ds = [] then 0
      else if signedRest.1 then -(natOfDigits ds : ℤ) else (natOfDigits ds : ℤ)
    else 0
  | [] => 0

/-- The rational value `± mantissa / 10 ^ fracLen * 10 ^ ex` of a parsed
decimal number, assembled with integer arithmetic and a single `mkRat`
(exact rationals stand in for the IEEE double `parseFloat` returns). -/
def decimalValue (neg : Bool) (mantissa : ℕ) (fracLen : ℕ) (ex : ℤ) : ℚ :=
  let n : ℤ := if neg then -(mantissa : ℤ) else (mantissa : ℤ)
  if 0 ≤ ex then mkRat (n * 10 ^ ex.toNat) (10 ^ fracLen)
  else mkRat n (10 ^ fracLen * 10 ^ (-ex).toNat)

/-- Fractional part: a `.` opens a (possibly empty) run of digits;
anything else contributes no fractional digits. -/
def splitFrac : List Char → List Char × List Char
  | [] => ([], [])
  | c :: t =>
    if c = '.' then (t.takeWhile Char.isDigit, t.dropWhile Char.isDigit)
    else ([], c :: t)

/-- Model of JavaScript `parseFloat`: skip leading whitespace, optional
sign, then either the literal `Infinity` or a decimal number
`digits [. digits] [exponent]`, reading the longest valid prefix and
ignoring the rest; `NaN` when no number can be read. -/
def parseFloat (cs : List Char) : JVal :=
  let signed := splitSign (cs.dropWhile Char.isWhitespace)
  let neg := signed.1
  let cs1 := signed.2
  if cs1.take 8 = "Infinity".toList then
    if neg then JVal.neginf else JVal.posinf
  else
    let ip := cs1.takeWhile Char.isDigit
    let fp := splitFrac (cs1.dropWhile Char.isDigit)
    if ip = [] ∧ fp.1 = [] then JVal.nan
    else
      JVal.num (decimalValue neg (natOfDigits ip * 10 ^ fp.1.length + natOfDigits fp.1)
        fp.1.length (parseExponent fp.2))

/-- `priceStr.replace('R$', '')`: remove the first occurrence of the
literal `R$`. -/
def replaceFirstRS : List Char → List Char
  | [] => []
  | [c] => [c]
  | c :: d :: rest =>
    if c = 'R' ∧ d = '$' then rest
    else c :: replaceFirstRS (d :: rest)

/-- `.replace(/\./g, '')`: remove every `.` character. -/
def removeDots (cs : List Char) : List Char :=
  cs.filter (fun c => c ≠ '.')

/-- `.replace(',', '.')`: replace the first `,` with `.`. -/
def replaceFirstComma : List Char → List Char
  | [] => []
  | c :: rest =>
    if c = ',' then '.' :: rest
    else c :: replaceFirstComma rest

/-- `.trim()`: drop whitespace from both ends. -/
def trimChars (cs : List Char) : List Char :=
  ((cs.dropWhile Char.isWhitespace).reverse.dropWhile Char.isWhitespace).reverse

/-- The string transformation applied by `parsePrice` before
`parseFloat`: strip the first `R$`, remove all dots, turn the first
comma into a dot, trim. -/
def transformPrice (s : String) : List Char :=
  trimChars (replaceFirstComma (removeDots (replaceFirstRS s.toList)))

/-- `parsePrice` from the source (`displayedProducts` / `ProductCard`):
`null`, the empty string (falsy) and the literal `N/A` give `Infinity`;
any other string is transformed and handed to `parseFloat`. -/
def parsePrice (priceStr : Option String) : JVal :=
  match priceStr with
  | none => JVal.posinf
  | some s =>
    if s = "" ∨ s = "N/A" then JVal.posinf
    else parseFloat (transformPrice s)

/-- The two supported marketplaces (`name: "Amazon" | "Mercado Livre"`). -/
inductive StoreName where
  | amazon : StoreName
  | mercadoLivre : StoreName
deriving DecidableEq

/-- `PriceHistoryEntry` from the source: `date` is the ISO timestamp,
modelled by its epoch-millisecond value; `price` is `string | null`. -/
structure PriceHistoryEntry where
  date : ℤ
  price : Option String
deriving DecidableEq

/-- `ProductStore` from the source. -/
structure ProductStore where
  name : StoreName
  currentPrice : Option String
  url : Option String
  priceHistory : List PriceHistoryEntry
deriving DecidableEq

/-- `affiliateIds` record carried by a product. -/
structure AffiliateIds where
  amazon : Option String
  mercadoLivre : Option String
deriving DecidableEq

/-- `Product` from the source. -/
structure Product where
  productName : String
  imageUrl : String
  stores : List ProductStore
  originalUrl : String
  affiliateIds : Option AffiliateIds
deriving DecidableEq

/-- One store of the payload returned by `fetchProductData`
(`{name, price, url}`, before any history is attached). -/
structure RawStore where
  name : StoreName
  price : Option String
  url : Option String
deriving DecidableEq

/-- The payload returned by `fetchProductData`. -/
structure RawProductData where
  productName : String
  imageUrl : String
  stores : List RawStore
  originalUrl : String
deriving DecidableEq

/-- The history-merge step of `updateProductData` (lines 221-227 of the
source), as the spec's `reconcile(existingHistory, newPrice, now)`:
append `{date: now, price: newPrice}` unless the last entry exists and
its price is strictly equal (as a raw `string | null` value) to
`newPrice`.  An empty history has no last entry (`lastPriceEntry` is
`undefined`), so the comparison `lastPriceEntry?.price !== price`
succeeds and the entry is appended. -/
def reconcile (existingHistory : List PriceHistoryEntry) (newPrice : Option String)
    (now : ℤ) : List PriceHistoryEntry :=
  if existingHistory.getLast?.map PriceHistoryEntry.price = some newPrice then
    existingHistory
  else
    existingHistory ++ [{ date := now, price := newPrice }]

/-- The per-store body of `updateProductData`: find the old store of the
same name, merge the new price into its history, and rebuild the store
with the freshly fetched `url` and `currentPrice`. -/
def updateStore (now : ℤ) (oldStores : List ProductStore) (newStoreData : RawStore) :
    ProductStore :=
  let oldStore := oldStores.find? fun s => s.name = newStoreData.name
  let oldPriceHistory := (oldStore.map ProductStore.priceHistory).getD []
  { name := newStoreData.name
    url := newStoreData.url
    currentPrice := newStoreData.price
    priceHistory := reconcile oldPriceHistory newStoreData.price now }

/-- `updateProductData` (minus the network call): rebuild the product
from the fresh payload, merging each store's history and carrying the
affiliate ids over from the original product. -/
def updateProductData (now : ℤ) (product : Product) (newData : RawProductData) : Product :=
  { productName := newData.productName
    imageUrl := newData.imageUrl
    originalUrl := newData.originalUrl
    stores := newData.stores.map (updateStore now product.stores)
    affiliateIds := product.affiliateIds }

/-- The store-seeding step shared by `handleAddProduct` and the new-URL
branch of `handleSaveEdit`: every fetched store gets a one-entry
history built from its current price. -/
def seedStores (now : ℤ) (raw : List RawStore) : List ProductStore :=
  raw.map fun store =>
    { name := store.name
      url := store.url
      currentPrice := store.price
      priceHistory := [{ date := now, price := store.price }] }

/-- The product built by `handleAddProduct` from a successful fetch. -/
def handleAddProduct (now : ℤ) (productData : RawProductData)
    (globalAffiliateIds : AffiliateIds) : Product :=
  { productName := productData.productName
    imageUrl := productData.imageUrl
    originalUrl := productData.originalUrl
    stores := seedStores now productData.stores
    affiliateIds := some globalAffiliateIds }

/-- The product built by the new-URL branch of `handleSaveEdit`: history
is replaced entirely by a fresh one-entry history per store. -/
def handleSaveEditNewUrl (now : ℤ) (fetchedData : RawProductData)
    (newAffiliateIds : AffiliateIds) : Product :=
  { productName := fetchedData.productName
    imageUrl := fetchedData.imageUrl
    originalUrl := fetchedData.originalUrl
    stores := seedStores now fetchedData.stores
    affiliateIds := some newAffiliateIds }

/-- Outcome of one settled promise, as delivered by
`Promise.allSettled`. -/
inductive SettledResult (α : Type) where
  | fulfilled (value : α) : SettledResult α
  | rejected : SettledResult α
deriving DecidableEq

/-- `handleUpdateAllProducts`: every product is refreshed independently;
a fulfilled resolve yields the reconciled product, a rejected one keeps
the original product at the same position.  `outcomes` lists the
settled result of each product's `fetchProductData` call, in input
order. -/
def handleUpdateAllProducts (now : ℤ) (products : List Product)
    (outcomes : List (SettledResult RawProductData)) : List Product :=
  (products.zip outcomes).map fun po =>
    match po.2 with
    | .fulfilled newData => updateProductData now po.1 newData
    | .rejected => po.1

/-- The per-store body of `hasPriceDropped24h` (the `some` callback):
at least two history entries, the last entry (`history[length-1]`) at
most 24 hours old, and its parsed price below the second-to-last
entry's (`history[length-2]`). -/
def storeDropped24h (twentyFourHoursAgo : ℤ) (store : ProductStore) : Bool :=
  if store.priceHistory.length < 2 then false
  else
    match store.priceHistory.getLast?, store.priceHistory.dropLast.getLast? with
    | some lastEntry, some secondLastEntry =>
      if lastEntry.date < twentyFourHoursAgo then false
      else JVal.lt (parsePrice lastEntry.price) (parsePrice secondLastEntry.price)
    | _, _ => false

/-- `hasPriceDropped24h` from `displayedProducts`: some store satisfies
the drop predicate relative to `Date.now() - 24*60*60*1000`. -/
def hasPriceDropped24h (nowMs : ℤ) (p : Product) : Bool :=
  p.stores.any (storeDropped24h (nowMs - 24 * 60 * 60 * 1000))

/-- JavaScript truthiness of a `string | null` value: `null` and the
empty string are falsy. -/
def truthyStr : Option String → Bool
  | none => false
  | some s => s ≠ ""

/-- The `validStores` filter of `bestOffer`: a truthy, non-`N/A` price
and a truthy, non-`N/A` URL. -/
def validStore (s : ProductStore) : Bool :=
  truthyStr s.currentPrice && truthyStr s.url &&
    s.currentPrice ≠ some "N/A" && s.url ≠ some "N/A"

/-- The `reduce` step of `bestOffer`: keep the current best unless the
candidate's parsed price is strictly lower. -/
def bestOfferStep (best current : ProductStore) : ProductStore :=
  if JVal.lt (parsePrice current.currentPrice) (parsePrice best.currentPrice) then current
  else best

/-- `bestOffer` from `ProductCard`: `reduce` over the qualifying stores,
`null` when none qualifies. -/
def bestOffer (p : Product) : Option ProductStore :=
  let validStores := p.stores.filter validStore
  match validStores with
  | [] => none
  | b :: rest => some (rest.foldl bestOfferStep b)

/-- The `PriceChangeIndicator` component, modelled by the data it
renders: `none` when no indicator is shown, otherwise the signed change
`last - previous` together with the `isDrop` flag. -/
def priceChangeIndicator (nowMs : ℤ) (history : List PriceHistoryEntry) :
    Option (JVal × Bool) :=
  if history.length < 2 then none
  else
    let twentyFourHoursAgo := nowMs - (24 * 60 * 60 * 1000)
    match history.getLast?, history.dropLast.getLast? with
    | some lastEntry, some secondLastEntry =>
      if lastEntry.date < twentyFourHoursAgo then none
      else
        let lastPrice := parsePrice lastEntry.price
        let prevPrice := parsePrice secondLastEntry.price
        if JVal.eqb lastPrice JVal.posinf || JVal.eqb prevPrice JVal.posinf ||
            JVal.eqb lastPrice prevPrice then none
        else
          let change := JVal.sub lastPrice prevPrice
          some (change, JVal.lt change (JVal.num 0))
    | _, _ => none

/-! ### Model of the browser `URL` API used by `constructAffiliateUrl`

`new URL(url)` / `searchParams.set` / `toString()` are modelled by a
simplified structural parser: a URL is a scheme-led base, an optional
query of `key=value` pairs, and an optional fragment.  Parsing fails
(`new URL` throws) when the string has no alphabetic scheme followed by
`:`.  Percent-encoding and host normalisation are abstracted away. -/

/-- Parsed form of a URL: everything before `?`/`#`, the query pairs,
and the fragment. -/
structure UrlModel where
  base : List Char
  params : List (List Char × List Char)
  fragment : Option (List Char)
deriving DecidableEq

/-- Split a character list at the first occurrence of `sep`; `none`
second component when `sep` does not occur. -/
def splitAtFirst (sep : Char) : List Char → List Char × Option (List Char)
  | [] => ([], none)
  | c :: rest =>
    if c = sep then ([], some rest)
    else
      let r := splitAtFirst sep rest
      (c :: r.1, r.2)

/-- One `key=value` query pair (`key` alone stands for `key=`). -/
def parseQueryPair (cs : List Char) : List Char × List Char :=
  let r := splitAtFirst '=' cs
  (r.1, r.2.getD [])

/-- Query string split on `&` into pairs. -/
def parseQuery (cs : List Char) : List (List Char × List Char) :=
  (cs.splitOn '&').map parseQueryPair

/-- `new URL(s)`: `none` models the thrown `TypeError` on an invalid
URL (no nonempty alphabetic scheme followed by `:`). -/
def parseUrl (s : String) : Option UrlModel :=
  let cs := s.toList
  let sch := cs.takeWhile Char.isAlpha
  if sch = [] then none
  else
    match cs.dropWhile Char.isAlpha with
    | ':' :: _ =>
      let noFrag := splitAtFirst '#' cs
      let baseQuery := splitAtFirst '?' noFrag.1
      some { base := baseQuery.1
             params := match baseQuery.2 with
               | none => []
               | some q => parseQuery q
             fragment := noFrag.2 }
    | _ => none

/-- `searchParams.set(key, value)`: overwrite the first pair with this
key and drop any later duplicates, or append a new pair at the end. -/
def setParams (key value : List Char) : List (List Char × List Char) →
    List (List Char × List Char)
  | [] => [(key, value)]
  | kv :: rest =>
    if kv.1 = key then (key, value) :: rest.filter (fun p => p.1 ≠ key)
    else kv :: setParams key value rest

/-- `searchParams.set` lifted to the URL model. -/
def setParam (u : UrlModel) (key value : List Char) : UrlModel :=
  { u with params := setParams key value u.params }

/-- `searchParams.get(key)`: value of the first pair with this key. -/
def getParam (u : UrlModel) (key : List Char) : Option (List Char) :=
  (u.params.find? fun p => p.1 = key).map Prod.snd

/-- `url.toString()`: base, `?`-joined query, `#`-fragment. -/
def urlToString (u : UrlModel) : String :=
  let query : List Char :=
    match u.params with
    | [] => []
    | ps => '?' :: List.intercalate ['&'] (ps.map fun p => p.1 ++ '=' :: p.2)
  let frag : List Char :=
    match u.fragment with
    | none => []
    | some f => '#' :: f
  ⟨u.base ++ query ++ frag⟩

/-- The query-parameter name used per store (`tag` for Amazon, `afid`
for Mercado Livre). -/
def affiliateParamKey : StoreName → List Char
  | .amazon => "tag".toList
  | .mercadoLivre => "afid".toList

/-- The identifier resolution of `constructAffiliateUrl`:
`productAffiliateIds?.<store> || globalAffiliateIds.<store>` (a missing
or falsy-empty override falls back to the global id). -/
def resolveAffiliateId (globalAffiliateIds : AffiliateIds)
    (productAffiliateIds : Option AffiliateIds) (storeName : StoreName) : Option String :=
  let override : Option String := match storeName with
    | .amazon => productAffiliateIds.bind AffiliateIds.amazon
    | .mercadoLivre => productAffiliateIds.bind AffiliateIds.mercadoLivre
  let global : Option String := match storeName with
    | .amazon => globalAffiliateIds.amazon
    | .mercadoLivre => globalAffiliateIds.mercadoLivre
  match override with
  | some s => if s = "" then global else some s
  | none => global

/-- `constructAffiliateUrl`: return the URL unchanged when the resolved
identifier is absent or empty, the URL is empty or the `N/A` sentinel,
or the URL fails to parse; otherwise set the store-specific query
parameter to the identifier and serialise.  The `try`/`catch` of the
source is the `parseUrl` `Option`; the function itself never throws. -/
def constructAffiliateUrl (globalAffiliateIds : AffiliateIds) (url : String)
    (storeName : StoreName) (productAffiliateIds : Option AffiliateIds) : String :=
  let idToUse := resolveAffiliateId globalAffiliateIds productAffiliateIds storeName
  match idToUse with
  | none => url
  | some idStr =>
    if idStr = "" ∨ url = "" ∨ url = "N/A" then url
    else
      match parseUrl url with
      | none => url
      | some urlObject => urlToString (setParam urlObject (affiliateParamKey storeName) idStr.toList)

/-! ### Helper lemmas -/

/-- The merged history always ends in an entry whose price is the new
price (either it was just appended, or the old last entry already
carried it). -/
theorem reconcile_getLast_price (existingHistory : List PriceHistoryEntry)
    (newPrice : Option String) (now : ℤ) :
    (reconcile existingHistory newPrice now).getLast?.map PriceHistoryEntry.price
      = some newPrice := by
  unfold reconcile
  split
  · assumption
  · rw [List.getLast?_concat]
    rfl

/-- The merged history is never empty. -/
theorem reconcile_ne_nil (existingHistory : List PriceHistoryEntry)
    (newPrice : Option String) (now : ℤ) :
    reconcile existingHistory newPrice now ≠ [] := by
  intro h
  have := reconcile_getLast_price existingHistory newPrice now
  rw [h] at this
  simp at this

/-- The per-store invariant of the spec's data model: a non-empty
history whose last entry's price equals `currentPrice`. -/
def storeInvariantOk (s : ProductStore) : Prop :=
  s.priceHistory ≠ [] ∧
    s.priceHistory.getLast?.map PriceHistoryEntry.price = some s.currentPrice

instance (s : ProductStore) : Decidable (storeInvariantOk s) := by
  unfold storeInvariantOk; infer_instance

/-! ### Claims -/

/-- C1: `reconcile` (the per-store merge of `updateProductData`) appends
exactly the entry `{timestamp: now, price: newPrice}` when the history
is empty or the last entry's price differs from `newPrice` as a raw
`string | null` value, and otherwise returns the history unchanged. -/
theorem claim_C1_reconcile_append_iff (existingHistory : List PriceHistoryEntry)
    (newPrice : Option String) (now : ℤ) :
    ((existingHistory = [] ∨
        existingHistory.getLast?.map PriceHistoryEntry.price ≠ some newPrice) →
      reconcile existingHistory newPrice now
        = existingHistory ++ [{ date := now, price := newPrice }]) ∧
    (existingHistory ≠ [] →
      existingHistory.getLast?.map PriceHistoryEntry.price = some newPrice →
      reconcile existingHistory newPrice now = existingHistory) := by
  constructor
  · intro h
    unfold reconcile
    rcases h with h | h
    · subst h
      simp
    · simp only [if_neg h]
  · intro _ h
    unfold reconcile
    simp only [if_pos h]

/-- Witness for C1: a first-ever resolution appends one entry, a
repeated identical price appends nothing, a changed price appends the
new entry. -/
theorem claim_C1_witness :
    reconcile [] (some "N/A") 7 = [{ date := 7, price := some "N/A" }] ∧
    reconcile [{ date := 0, price := some "R$100,00" }] (some "R$80,00") 5
      = [{ date := 0, price := some "R$100,00" }, { date := 5, price := some "R$80,00" }] ∧
    reconcile [{ date := 0, price := some "R$100,00" }] (some "R$100,00") 5
      = [{ date := 0, price := some "R$100,00" }] :=
  ⟨(claim_C1_reconcile_append_iff [] (some "N/A") 7).1 (Or.inl rfl),
   (claim_C1_reconcile_append_iff _ (some "R$80,00") 5).1 (Or.inr (by decide)),
   (claim_C1_reconcile_append_iff _ (some "R$100,00") 5).2 (by decide) (by decide)⟩

/-- C5: the merged history is a prefix-extension of the input history —
it is the input followed by some tail, every input entry is unchanged
at its position, and the length never shrinks. -/
theorem claim_C5_reconcile_prefix_extension (existingHistory : List PriceHistoryEntry)
    (newPrice : Option String) (now : ℤ) :
    (∃ tail, reconcile existingHistory newPrice now = existingHistory ++ tail) ∧
    (∀ i, i < existingHistory.length →
      (reconcile existingHistory newPrice now)[i]? = existingHistory[i]?) ∧
    existingHistory.length ≤ (reconcile existingHistory newPrice now).length := by
  have hext : ∃ tail, reconcile existingHistory newPrice now = existingHistory ++ tail := by
    unfold reconcile
    split
    · exact ⟨[], by simp⟩
    · exact ⟨[{ date := now, price := newPrice }], rfl⟩
  obtain ⟨tail, htail⟩ := hext
  refine ⟨⟨tail, htail⟩, ?_, ?_⟩
  · intro i hi
    rw [htail, List.getElem?_append, if_pos hi]
  · rw [htail]
    simp

/-- Witness for C5: the original entry survives unchanged at position 0
after an appending merge. -/
theorem claim_C5_witness :
    (reconcile [{ date := 0, price := some "R$1,00" }] (some "R$2,00") 3)[0]?
      = ([{ date := 0, price := some "R$1,00" }] :
          List PriceHistoryEntry)[0]? ∧
    (1 : ℕ) ≤ (reconcile [{ date := 0, price := some "R$1,00" }] (some "R$2,00") 3).length :=
  ⟨(claim_C5_reconcile_prefix_extension
      [{ date := 0, price := some "R$1,00" }] (some "R$2,00") 3).2.1 0 (by decide),
   by
    have h := (claim_C5_reconcile_prefix_extension
      [{ date := 0, price := some "R$1,00" }] (some "R$2,00") 3).2.2
    simpa using h⟩

/-- C6: after any of the three store-resolving operations (adding a
product, the per-product refresh reconciliation, editing to a new URL),
every store of the resulting product has a non-empty history whose last
entry's price equals `currentPrice`. -/
theorem claim_C6_invariant_after_resolve (now : ℤ) (raw : RawProductData)
    (gids : AffiliateIds) (p : Product) :
    (∀ s ∈ (handleAddProduct now raw gids).stores, storeInvariantOk s) ∧
    (∀ s ∈ (updateProductData now p raw).stores, storeInvariantOk s) ∧
    (∀ s ∈ (handleSaveEditNewUrl now raw gids).stores, storeInvariantOk s) := by
  have hseed : ∀ s ∈ seedStores now raw.stores, storeInvariantOk s := by
    intro s hs
    unfold seedStores at hs
    obtain ⟨r, _, hr⟩ := List.mem_map.mp hs
    subst hr
    exact ⟨by simp, by simp⟩
  refine ⟨hseed, ?_, hseed⟩
  intro s hs
  unfold updateProductData at hs
  obtain ⟨r, _, hr⟩ := List.mem_map.mp hs
  subst hr
  unfold updateStore storeInvariantOk
  exact ⟨reconcile_ne_nil _ _ _, reconcile_getLast_price _ _ _⟩

/-- Witness for C6 at a concrete refresh: a product whose Amazon store
has prior history, refreshed with a changed price. -/
theorem claim_C6_witness :
    storeInvariantOk
      { name := .amazon, currentPrice := some "R$8,00", url := some "http://a",
        priceHistory := [{ date := 0, price := some "R$9,00" },
                         { date := 9, price := some "R$8,00" }] } :=
  (claim_C6_invariant_after_resolve 9
      { productName := "p", imageUrl := "i", originalUrl := "u"
        stores := [{ name := .amazon, price := some "R$8,00", url := some "http://a" }] }
      ⟨none, none⟩
      { productName := "p", imageUrl := "i", originalUrl := "u", affiliateIds := none
        stores := [{ name := .amazon, currentPrice := some "R$9,00",
                     url := some "http://a",
                     priceHistory := [{ date := 0, price := some "R$9,00" }] }] }).2.1
    _ (by decide)

/-- C8: refresh-all produces one output product per input product, in
input order: a rejected resolve keeps the original product unchanged at
its position, a fulfilled one puts the reconciled product there, and no
position depends on any other position's outcome. -/
theorem claim_C8_refresh_all_per_item (now : ℤ) (products : List Product)
    (outcomes : List (SettledResult RawProductData))
    (hlen : outcomes.length = products.length) :
    (handleUpdateAllProducts now products outcomes).length = products.length ∧
    ∀ (i : ℕ) (p : Product) (o : SettledResult RawProductData),
      products[i]? = some p → outcomes[i]? = some o →
      (handleUpdateAllProducts now products outcomes)[i]?
        = some (match o with
                | .fulfilled newData => updateProductData now p newData
                | .rejected => p) := by
  constructor
  · unfold handleUpdateAllProducts
    simp [hlen]
  · intro i p o hp ho
    unfold handleUpdateAllProducts
    rw [List.getElem?_map]
    have hzip : (products.zip outcomes)[i]? = some (p, o) :=
      (List.getElem?_zip_eq_some).mpr ⟨hp, ho⟩
    rw [hzip]
    rfl

/-- Witness for C8: the spec scenario — three products, the second
resolve rejects; the result has length 3, keeps the second product
byte-for-byte, and updates the first and third. -/
theorem claim_C8_witness :
    (handleUpdateAllProducts 1
        [{ productName := "a", imageUrl := "", stores := [], originalUrl := "ua", affiliateIds := none },
         { productName := "b", imageUrl := "", stores := [], originalUrl := "ub", affiliateIds := none },
         { productName := "c", imageUrl := "", stores := [], originalUrl := "uc", affiliateIds := none }]
        [.fulfilled { productName := "a2", imageUrl := "", stores := [], originalUrl := "ua" },
         .rejected,
         .fulfilled { productName := "c2", imageUrl := "", stores := [], originalUrl := "uc" }]).length = 3 ∧
    (handleUpdateAllProducts 1
        [{ productName := "a", imageUrl := "", stores := [], originalUrl := "ua", affiliateIds := none },
         { productName := "b", imageUrl := "", stores := [], originalUrl := "ub", affiliateIds := none },
         { productName := "c", imageUrl := "", stores := [], originalUrl := "uc", affiliateIds := none }]
        [.fulfilled { productName := "a2", imageUrl := "", stores := [], originalUrl := "ua" },
         .rejected,
         .fulfilled { productName := "c2", imageUrl := "", stores := [], originalUrl := "uc" }])[1]?
      = some { productName := "b", imageUrl := "", stores := [], originalUrl := "ub", affiliateIds := none } := by
  constructor
  · exact (claim_C8_refresh_all_per_item 1 _ _ (by decide)).1
  · exact (claim_C8_refresh_all_per_item 1 _ _ (by decide)).2 1 _ .rejected (by decide) (by decide)

/-- Characterisation of the per-store drop predicate. -/
theorem storeDropped24h_iff (t : ℤ) (store : ProductStore) :
    storeDropped24h t store = true ↔
      ∃ lastE prevE : PriceHistoryEntry,
        store.priceHistory.getLast? = some lastE ∧
        store.priceHistory.dropLast.getLast? = some prevE ∧
        2 ≤ store.priceHistory.length ∧ t ≤ lastE.date ∧
        JVal.lt (parsePrice lastE.price) (parsePrice prevE.price) = true := by
  unfold storeDropped24h
  by_cases hlen : store.priceHistory.length < 2
  · rw [if_pos hlen]
    constructor
    · intro h
      exact absurd h (by simp)
    · rintro ⟨lastE, prevE, -, -, hge, -, -⟩
      omega
  · rw [if_neg hlen]
    rcases hl : store.priceHistory.getLast? with - | lastE <;>
      rcases hp : store.priceHistory.dropLast.getLast? with - | prevE
    · simp
    · simp
    · simp
    · show (if lastE.date < t then false
          else JVal.lt (parsePrice lastE.price) (parsePrice prevE.price)) = true ↔ _
      constructor
      · intro h
        by_cases hd : lastE.date < t
        · rw [if_pos hd] at h
          exact absurd h (by simp)
        · rw [if_neg hd] at h
          exact ⟨lastE, prevE, rfl, rfl, by omega, by omega, h⟩
      · rintro ⟨l2, p2, hl2, hp2, -, hdate, hlt⟩
        obtain rfl : lastE = l2 := by injection hl2
        obtain rfl : prevE = p2 := by injection hp2
        rw [if_neg (by omega)]
        exact hlt

/-- C2: `hasPriceDropped24h` is true exactly when some store has at
least two history entries, its last entry lies within the 24-hour
window ending at evaluation time, and the last entry's parsed price is
strictly below the second-to-last entry's under the JS comparison; in
particular it is false when every store has fewer than two entries. -/
theorem claim_C2_price_drop_iff (nowMs : ℤ) (p : Product) :
    (hasPriceDropped24h nowMs p = true ↔
      ∃ store ∈ p.stores, ∃ lastE prevE : PriceHistoryEntry,
        store.priceHistory.getLast? = some lastE ∧
        store.priceHistory.dropLast.getLast? = some prevE ∧
        2 ≤ store.priceHistory.length ∧
        nowMs - 24 * 60 * 60 * 1000 ≤ lastE.date ∧
        JVal.lt (parsePrice lastE.price) (parsePrice prevE.price) = true) ∧
    ((∀ store ∈ p.stores, store.priceHistory.length < 2) →
      hasPriceDropped24h nowMs p = false) := by
  have hiff : hasPriceDropped24h nowMs p = true ↔
      ∃ store ∈ p.stores, ∃ lastE prevE : PriceHistoryEntry,
        store.priceHistory.getLast? = some lastE ∧
        store.priceHistory.dropLast.getLast? = some prevE ∧
        2 ≤ store.priceHistory.length ∧
        nowMs - 24 * 60 * 60 * 1000 ≤ lastE.date ∧
        JVal.lt (parsePrice lastE.price) (parsePrice prevE.price) = true := by
    unfold hasPriceDropped24h
    rw [List.any_eq_true]
    exact exists_congr fun store =>
      and_congr_right fun _ => storeDropped24h_iff _ store
  refine ⟨hiff, fun hall => ?_⟩
  by_contra h
  obtain ⟨store, hmem, -, -, -, -, hge, -, -⟩ :=
    hiff.mp (Bool.of_not_eq_false h)
  exact absurd (hall store hmem) (by omega)

/-- Witness for C2: a one-store product with a fresh drop from
`R$100,00` to `R$80,00` is flagged, and a product whose only store has
a single entry is not. -/
theorem claim_C2_witness :
    hasPriceDropped24h 100
      { productName := "p", imageUrl := "i", originalUrl := "u", affiliateIds := none
        stores := [{ name := .amazon, currentPrice := some "R$80,00", url := some "http://a",
                     priceHistory := [{ date := 0, price := some "R$100,00" },
                                      { date := 50, price := some "R$80,00" }] }] } = true ∧
    hasPriceDropped24h 100
      { productName := "q", imageUrl := "i", originalUrl := "u", affiliateIds := none
        stores := [{ name := .amazon, currentPrice := some "R$80,00", url := some "http://a",
                     priceHistory := [{ date := 50, price := some "R$80,00" }] }] } = false := by
  constructor
  · exact (claim_C2_price_drop_iff 100 _).1.mpr
      ⟨{ name := .amazon, currentPrice := some "R$80,00", url := some "http://a",
         priceHistory := [{ date := 0, price := some "R$100,00" },
                          { date := 50, price := some "R$80,00" }] },
        by decide, ⟨50, some "R$80,00"⟩, ⟨0, some "R$100,00"⟩,
        by decide, by decide, by decide, by decide, by decide⟩
  · exact (claim_C2_price_drop_iff 100 _).2 (by decide)

/-- Counterexample to C3: a store whose second-to-last entry is the
`N/A` sentinel (parsing to infinity) and whose last entry is a finite
price inside the 24-hour window does make `hasPriceDropped24h` true —
the finite price is strictly below infinity under the JS comparison. -/
theorem claim_C3_counterexample :
    hasPriceDropped24h 86400100
      { productName := "p", imageUrl := "i", originalUrl := "u", affiliateIds := none
        stores := [{ name := .amazon, currentPrice := some "R$10,00", url := some "http://a",
                     priceHistory := [{ date := 0, price := some "N/A" },
                                      { date := 100, price := some "R$10,00" }] }] } = true := by
  decide

/-- C3 amended: a store whose second-to-last entry parses to infinity
(unavailable) and whose last entry parses to a finite price within the
24-hour window always causes `hasPriceDropped24h` to return true: the
unavailable-to-available transition counts as a price drop. -/
theorem claim_C3_amended_unavailable_to_available_drops (nowMs : ℤ) (p : Product)
    (store : ProductStore) (hmem : store ∈ p.stores)
    (lastE prevE : PriceHistoryEntry)
    (hl : store.priceHistory.getLast? = some lastE)
    (hp : store.priceHistory.dropLast.getLast? = some prevE)
    (hlen : 2 ≤ store.priceHistory.length)
    (hwin : nowMs - 24 * 60 * 60 * 1000 ≤ lastE.date)
    (hprev : parsePrice prevE.price = JVal.posinf)
    (q : ℚ) (hlast : parsePrice lastE.price = JVal.num q) :
    hasPriceDropped24h nowMs p = true := by
  unfold hasPriceDropped24h
  rw [List.any_eq_true]
  refine ⟨store, hmem, (storeDropped24h_iff _ store).mpr
    ⟨lastE, prevE, hl, hp, hlen, hwin, ?_⟩⟩
  rw [hlast, hprev]
  rfl

/-- Witness for the amended C3: `N/A` followed by `R$10,00` one hundred
milliseconds into the window. -/
theorem claim_C3_witness :
    hasPriceDropped24h 86400099
      { productName := "w", imageUrl := "i", originalUrl := "u", affiliateIds := none
        stores := [{ name := .mercadoLivre, currentPrice := some "R$10,00",
                     url := some "http://b",
                     priceHistory := [{ date := 1, price := some "N/A" },
                                      { date := 99, price := some "R$10,00" }] }] } = true :=
  claim_C3_amended_unavailable_to_available_drops 86400099 _
    { name := .mercadoLivre, currentPrice := some "R$10,00", url := some "http://b",
      priceHistory := [{ date := 1, price := some "N/A" },
                       { date := 99, price := some "R$10,00" }] }
    (by decide)
    ⟨99, some "R$10,00"⟩ ⟨1, some "N/A"⟩ (by decide) (by decide) (by decide)
    (by decide) (by decide) 10 (by decide)

/-- C10: when the last two history entries parse to the same finite
price, `PriceChangeIndicator` renders nothing, even when the last entry
is inside the 24-hour window — a strict change between the two finite
parsed prices is required. -/
theorem claim_C10_no_indicator_on_equal_prices (nowMs : ℤ)
    (history : List PriceHistoryEntry) (lastE prevE : PriceHistoryEntry)
    (hl : history.getLast? = some lastE)
    (hp : history.dropLast.getLast? = some prevE)
    (q : ℚ) (hlast : parsePrice lastE.price = JVal.num q)
    (hprev : parsePrice prevE.price = JVal.num q) :
    priceChangeIndicator nowMs history = none := by
  unfold priceChangeIndicator
  by_cases hlen : history.length < 2
  · rw [if_pos hlen]
  · rw [if_neg hlen, hl, hp]
    show (if lastE.date < nowMs - 24 * 60 * 60 * 1000 then none
        else
          let lastPrice := parsePrice lastE.price
          let prevPrice := parsePrice prevE.price
          if JVal.eqb lastPrice JVal.posinf || JVal.eqb prevPrice JVal.posinf ||
              JVal.eqb lastPrice prevPrice then none
          else
            let change := JVal.sub lastPrice prevPrice
            some (change, JVal.lt change (JVal.num 0))) = none
    by_cases hd : lastE.date < nowMs - 24 * 60 * 60 * 1000
    · rw [if_pos hd]
    · rw [if_neg hd]
      simp only [hlast, hprev]
      have heq : JVal.eqb (JVal.num q) (JVal.num q) = true := by
        simp [JVal.eqb]
      rw [heq]
      simp

/-- Witness for C10: two identical `R$10,00` entries, the last one
well inside the window. -/
theorem claim_C10_witness :
    priceChangeIndicator 100
      [{ date := 0, price := some "R$10,00" }, { date := 99, price := some "R$10,00" }]
      = none :=
  claim_C10_no_indicator_on_equal_prices 100 _ ⟨99, some "R$10,00"⟩ ⟨0, some "R$10,00"⟩
    (by decide) (by decide) 10 (by decide) (by decide)

/-! ### The documented localized money format

`formatMoney` produces the documented `R$ 1.234,56` shape: currency
marker, space, integer digits in dot-separated groups of three, a comma,
and two cent digits. -/

/-- Character of a decimal digit. -/
def digitChar (d : ℕ) : Char := Char.ofNat (48 + d)

/-- Decimal digit characters of `n`, most significant first (`"0"` for
zero). -/
def natDigits (n : ℕ) : List Char :=
  if n = 0 then ['0'] else ((Nat.digits 10 n).reverse.map digitChar)

/-- Insert a `.` after every three characters, working on a reversed
digit list. -/
def groupRev : List Char → List Char
  | a :: b :: c :: d :: rest => a :: b :: c :: '.' :: groupRev (d :: rest)
  | l => l

/-- Thousands grouping: `1234` ↦ `1.234`. -/
def groupThousands (ds : List Char) : List Char :=
  (groupRev ds.reverse).reverse

/-- Two-digit cent block. -/
def pad2 (c : ℕ) : List Char := [digitChar (c / 10), digitChar (c % 10)]

/-- The documented money format `R$ <grouped units>,<two cent digits>`. -/
def formatMoney (units cents : ℕ) : String :=
  ⟨'R' :: '$' :: ' ' :: (groupThousands (natDigits units) ++ ',' :: pad2 cents)⟩

/-! ### Character and list helper lemmas -/

theorem toNat_bounds_of_isDigit {c : Char} (h : c.isDigit = true) :
    48 ≤ c.toNat ∧ c.toNat ≤ 57 := by
  simpa [Char.isDigit] using h

theorem isDigit_digitChar {d : ℕ} (h : d < 10) : (digitChar d).isDigit = true := by
  interval_cases d <;> decide

theorem digitVal_digitChar {d : ℕ} (h : d < 10) : digitVal (digitChar d) = d := by
  interval_cases d <;> decide

theorem not_whitespace_of_isDigit {c : Char} (h : c.isDigit = true) :
    c.isWhitespace = false := by
  obtain ⟨h1, h2⟩ := toNat_bounds_of_isDigit h
  rcases hw : c.isWhitespace with - | -
  · rfl
  · exfalso
    simp only [Char.isWhitespace, Bool.or_eq_true, decide_eq_true_eq] at hw
    rcases hw with ((rfl | rfl) | rfl) | rfl <;> simp_all

theorem ne_of_isDigit {c : Char} (h : c.isDigit = true) :
    c ≠ '.' ∧ c ≠ ',' ∧ c ≠ '+' ∧ c ≠ '-' ∧ c ≠ 'I' := by
  obtain ⟨h1, h2⟩ := toNat_bounds_of_isDigit h
  refine ⟨?_, ?_, ?_, ?_, ?_⟩ <;> rintro rfl <;> simp_all

theorem dropWhile_eq_self_of_all {α : Type} (p : α → Bool) :
    ∀ l : List α, (∀ c ∈ l, p c = false) → l.dropWhile p = l
  | [], _ => rfl
  | a :: l, h => by
    rw [List.dropWhile_cons, if_neg (by simp [h a (by simp)])]

theorem takeWhile_eq_self_of_all {α : Type} (p : α → Bool) :
    ∀ l : List α, (∀ c ∈ l, p c = true) → l.takeWhile p = l
  | [], _ => rfl
  | a :: l, h => by
    rw [List.takeWhile_cons, if_pos (h a (by simp))]
    rw [takeWhile_eq_self_of_all p l fun c hc => h c (by simp [hc])]

theorem dropWhile_eq_nil_of_all {α : Type} (p : α → Bool) :
    ∀ l : List α, (∀ c ∈ l, p c = true) → l.dropWhile p = []
  | [], _ => rfl
  | a :: l, h => by
    rw [List.dropWhile_cons, if_pos (h a (by simp))]
    exact dropWhile_eq_nil_of_all p l fun c hc => h c (by simp [hc])

theorem takeWhile_append_of_all {α : Type} (p : α → Bool) (y : α) (ys : List α)
    (hy : p y = false) :
    ∀ xs : List α, (∀ c ∈ xs, p c = true) →
      (xs ++ y :: ys).takeWhile p = xs
  | [], _ => by simp [List.takeWhile_cons, hy]
  | a :: xs, h => by
    rw [List.cons_append, List.takeWhile_cons, if_pos (h a (by simp))]
    rw [takeWhile_append_of_all p y ys hy xs fun c hc => h c (by simp [hc])]

theorem dropWhile_append_of_all {α : Type} (p : α → Bool) (y : α) (ys : List α)
    (hy : p y = false) :
    ∀ xs : List α, (∀ c ∈ xs, p c = true) →
      (xs ++ y :: ys).dropWhile p = y :: ys
  | [], _ => by simp [List.dropWhile_cons, hy]
  | a :: xs, h => by
    rw [List.cons_append, List.dropWhile_cons, if_pos (h a (by simp))]
    exact dropWhile_append_of_all p y ys hy xs fun c hc => h c (by simp [hc])

theorem trimChars_eq_self {l : List Char} (h : ∀ c ∈ l, c.isWhitespace = false) :
    trimChars l = l := by
  unfold trimChars
  rw [dropWhile_eq_self_of_all _ l h,
    dropWhile_eq_self_of_all _ l.reverse (by simpa using h), List.reverse_reverse]

theorem replaceFirstComma_eq_self :
    ∀ l : List Char, (∀ c ∈ l, c ≠ ',') → replaceFirstComma l = l
  | [], _ => rfl
  | a :: l, h => by
    rw [replaceFirstComma, if_neg (h a (by simp)),
      replaceFirstComma_eq_self l fun c hc => h c (by simp [hc])]

theorem replaceFirstComma_append (ys : List Char) :
    ∀ xs : List Char, (∀ c ∈ xs, c ≠ ',') →
      replaceFirstComma (xs ++ ',' :: ys) = xs ++ '.' :: ys
  | [], _ => by simp [replaceFirstComma]
  | a :: xs, h => by
    rw [List.cons_append, replaceFirstComma, if_neg (h a (by simp)),
      replaceFirstComma_append ys xs fun c hc => h c (by simp [hc]), List.cons_append]

theorem replaceFirstRS_eq_self :
    ∀ l : List Char, (∀ c ∈ l, c ≠ '$') → replaceFirstRS l = l
  | [], _ => rfl
  | [c], _ => rfl
  | a :: b :: l, h => by
    rw [replaceFirstRS, if_neg (by rintro ⟨-, rfl⟩; exact h '$' (by simp) rfl),
      replaceFirstRS_eq_self (b :: l) fun c hc => h c (by simp_all)]

theorem mem_groupRev : ∀ l : List Char, ∀ c ∈ groupRev l, c ∈ l ∨ c = '.'
  | a :: b :: c0 :: d :: rest, c, h => by
    rw [groupRev] at h
    simp only [List.mem_cons] at h ⊢
    rcases h with rfl | rfl | rfl | rfl | h
    · exact Or.inl (Or.inl rfl)
    · exact Or.inl (Or.inr (Or.inl rfl))
    · exact Or.inl (Or.inr (Or.inr (Or.inl rfl)))
    · exact Or.inr rfl
    · rcases mem_groupRev (d :: rest) c h with hm | hm
      · simp only [List.mem_cons] at hm
        rcases hm with rfl | hm
        · exact Or.inl (Or.inr (Or.inr (Or.inr (Or.inl rfl))))
        · exact Or.inl (Or.inr (Or.inr (Or.inr (Or.inr hm))))
      · exact Or.inr hm
  | [], c, h => by exact Or.inl h
  | [a], c, h => by exact Or.inl h
  | [a, b], c, h => by exact Or.inl h
  | [a, b, c0], c, h => by exact Or.inl h

theorem filter_groupRev :
    ∀ l : List Char, (∀ c ∈ l, c ≠ '.') →
      (groupRev l).filter (fun c => c ≠ '.') = l
  | a :: b :: c0 :: d :: rest, h => by
    rw [groupRev]
    have hrec := filter_groupRev (d :: rest) fun c hc => h c (by simp_all)
    simp only [List.filter_cons] at hrec ⊢
    rw [if_pos (by simpa using h a (by simp)), if_pos (by simpa using h b (by simp)),
      if_pos (by simpa using h c0 (by simp)), if_neg (by simp), hrec]
  | [], _ => rfl
  | [a], h => by
    have hg : groupRev [a] = [a] := rfl
    rw [hg]
    simp [List.filter_cons, h a (by simp)]
  | [a, b], h => by
    have hg : groupRev [a, b] = [a, b] := rfl
    rw [hg]
    simp [List.filter_cons, h a (by simp), h b (by simp)]
  | [a, b, c0], h => by
    have hg : groupRev [a, b, c0] = [a, b, c0] := rfl
    rw [hg]
    simp [List.filter_cons, h a (by simp), h b (by simp), h c0 (by simp)]

theorem filter_groupThousands {ds : List Char} (h : ∀ c ∈ ds, c ≠ '.') :
    (groupThousands ds).filter (fun c => c ≠ '.') = ds := by
  unfold groupThousands
  rw [List.filter_reverse, filter_groupRev ds.reverse (by simpa using h)]
  exact List.reverse_reverse ds

theorem mem_groupThousands {ds : List Char} {c : Char} (h : c ∈ groupThousands ds) :
    c ∈ ds ∨ c = '.' := by
  unfold groupThousands at h
  rw [List.mem_reverse] at h
  rcases mem_groupRev ds.reverse c h with hm | hm
  · exact Or.inl (List.mem_reverse.mp hm)
  · exact Or.inr hm

/-! ### Decimal reading of formatted digits -/

theorem natOfDigits_go (L : List ℕ) :
    ∀ a : ℕ, (∀ d ∈ L, d < 10) →
      (L.reverse.map digitChar).foldl (fun acc c => 10 * acc + digitVal c) a
        = a * 10 ^ L.length + Nat.ofDigits 10 L := by
  induction L with
  | nil => intro a _; simp [Nat.ofDigits_nil]
  | cons hd tl ih =>
    intro a h
    rw [List.reverse_cons, List.map_append, List.foldl_append]
    rw [ih a fun d hd2 => h d (by simp [hd2])]
    simp only [List.map_cons, List.map_nil, List.foldl_cons, List.foldl_nil]
    rw [digitVal_digitChar (h hd (by simp)), Nat.ofDigits_cons]
    simp only [List.length_cons, pow_succ]
    ring

theorem natOfDigits_natDigits (n : ℕ) : natOfDigits (natDigits n) = n := by
  unfold natDigits
  by_cases h : n = 0
  · subst h
    decide
  · rw [if_neg h]
    unfold natOfDigits
    rw [natOfDigits_go (Nat.digits 10 n) 0
      (fun d hd => Nat.digits_lt_base (by norm_num) hd)]
    simp [Nat.ofDigits_digits]

theorem natDigits_all_digits (n : ℕ) : ∀ c ∈ natDigits n, c.isDigit = true := by
  unfold natDigits
  by_cases h : n = 0
  · subst h
    intro c hc
    simp at hc
    subst hc
    decide
  · rw [if_neg h]
    intro c hc
    obtain ⟨d, hd, rfl⟩ := List.mem_map.mp hc
    exact isDigit_digitChar (Nat.digits_lt_base (by norm_num) (List.mem_reverse.mp hd))

theorem natDigits_ne_nil (n : ℕ) : natDigits n ≠ [] := by
  unfold natDigits
  by_cases h : n = 0
  · simp [h]
  · rw [if_neg h]
    simp [Nat.digits_ne_nil_iff_ne_zero.mpr h]

theorem natOfDigits_pad2 {c : ℕ} (h : c < 100) : natOfDigits (pad2 c) = c := by
  unfold natOfDigits pad2
  simp only [List.foldl_cons, List.foldl_nil]
  rw [digitVal_digitChar (by omega), digitVal_digitChar (Nat.mod_lt c (by norm_num))]
  omega

theorem pad2_all_digits {c : ℕ} (h : c < 100) : ∀ ch ∈ pad2 c, ch.isDigit = true := by
  intro ch hch
  unfold pad2 at hch
  simp only [List.mem_cons, List.not_mem_nil, or_false] at hch
  rcases hch with rfl | rfl
  · exact isDigit_digitChar (by omega)
  · exact isDigit_digitChar (Nat.mod_lt c (by norm_num))

/-! ### Evaluating `parseFloat` on a plain decimal string -/

/-- `parseFloat` on `<digits>.<digits>` with a nonempty integer part
reads the exact decimal value. -/
theorem parseFloat_digits_point (ds cs : List Char) (hne : ds ≠ [])
    (hds : ∀ c ∈ ds, c.isDigit = true) (hcs : ∀ c ∈ cs, c.isDigit = true) :
    parseFloat (ds ++ '.' :: cs)
      = JVal.num (decimalValue false (natOfDigits ds * 10 ^ cs.length + natOfDigits cs)
          cs.length 0) := by
  obtain ⟨d, ds', rfl⟩ : ∃ d ds', ds = d :: ds' := by
    cases ds with
    | nil => exact absurd rfl hne
    | cons d ds' => exact ⟨d, ds', rfl⟩
  have hd : d.isDigit = true := hds d (by simp)
  obtain ⟨-, -, hplus, hminus, hI⟩ := ne_of_isDigit hd
  unfold parseFloat
  have hdrop : ((d :: ds') ++ '.' :: cs).dropWhile Char.isWhitespace
      = (d :: ds') ++ '.' :: cs := by
    rw [List.cons_append, List.dropWhile_cons,
      if_neg (by simp [not_whitespace_of_isDigit hd])]
  rw [hdrop]
  have hsign : splitSign ((d :: ds') ++ '.' :: cs) = (false, (d :: ds') ++ '.' :: cs) := by
    rw [List.cons_append, splitSign, if_neg hplus, if_neg hminus]
  rw [hsign]
  simp only
  have hinf : ((d :: ds') ++ '.' :: cs).take 8 ≠ "Infinity".toList := by
    intro hcontra
    rw [List.cons_append, show (8 : ℕ) = 7 + 1 from rfl, List.take_succ_cons] at hcontra
    have : d = 'I' := by injection hcontra
    exact hI this
  rw [if_neg hinf]
  have htake : ((d :: ds') ++ '.' :: cs).takeWhile Char.isDigit = d :: ds' :=
    takeWhile_append_of_all Char.isDigit '.' cs (by decide) (d :: ds') hds
  have hdrop2 : ((d :: ds') ++ '.' :: cs).dropWhile Char.isDigit = '.' :: cs :=
    dropWhile_append_of_all Char.isDigit '.' cs (by decide) (d :: ds') hds
  rw [htake, hdrop2]
  have hfrac : splitFrac ('.' :: cs)
      = (cs.takeWhile Char.isDigit, cs.dropWhile Char.isDigit) := by
    rw [splitFrac, if_pos rfl]
  rw [hfrac]
  simp only [takeWhile_eq_self_of_all Char.isDigit cs hcs,
    dropWhile_eq_nil_of_all Char.isDigit cs hcs]
  rw [if_neg (by simp)]
  rfl

/-- `decimalValue` with no sign and no exponent is the plain fraction. -/
theorem decimalValue_nonneg_zero (m l : ℕ) :
    decimalValue false m l 0 = (m : ℚ) / 10 ^ l := by
  unfold decimalValue
  rw [if_pos (by norm_num)]
  simp only [Int.toNat_zero, pow_zero, mul_one, Bool.false_eq_true, if_false]
  rw [Rat.mkRat_eq_div]
  push_cast
  ring

/-- Whitespace characters all have code points below 33. -/
theorem not_whitespace_of_toNat {c : Char} (h : 33 ≤ c.toNat) :
    c.isWhitespace = false := by
  rcases hw : c.isWhitespace with - | -
  · rfl
  · exfalso
    simp only [Char.isWhitespace, Bool.or_eq_true, decide_eq_true_eq] at hw
    rcases hw with ((rfl | rfl) | rfl) | rfl <;> simp_all

/-- The price-string transformation turns a formatted money string into
`<integer digits>.<cent digits>`. -/
theorem transformPrice_formatMoney (units cents : ℕ) (hc : cents < 100) :
    transformPrice (formatMoney units cents) = natDigits units ++ '.' :: pad2 cents := by
  have hGdigit : ∀ c ∈ groupThousands (natDigits units), c.isDigit = true ∨ c = '.' := by
    intro c hcmem
    rcases mem_groupThousands hcmem with hm | hm
    · exact Or.inl (natDigits_all_digits units c hm)
    · exact Or.inr hm
  have hpadd := pad2_all_digits hc
  unfold transformPrice formatMoney
  show trimChars (replaceFirstComma (removeDots (replaceFirstRS
    ('R' :: '$' :: ' ' :: (groupThousands (natDigits units) ++ ',' :: pad2 cents))))) = _
  rw [replaceFirstRS, if_pos ⟨rfl, rfl⟩]
  unfold removeDots
  rw [List.filter_cons_of_pos (by decide), List.filter_append,
    filter_groupThousands (fun c hcmem => (ne_of_isDigit (natDigits_all_digits units c hcmem)).1),
    List.filter_cons_of_pos (by decide),
    List.filter_eq_self.mpr (fun c hcmem => by
      simpa using (ne_of_isDigit (hpadd c hcmem)).1)]
  rw [replaceFirstComma, if_neg (by decide),
    replaceFirstComma_append (pad2 cents) (natDigits units)
      (fun c hcmem => (ne_of_isDigit (natDigits_all_digits units c hcmem)).2.1)]
  have hX : ∀ c ∈ natDigits units ++ '.' :: pad2 cents, c.isWhitespace = false := by
    intro c hcmem
    rcases List.mem_append.mp hcmem with hm | hm
    · exact not_whitespace_of_isDigit (natDigits_all_digits units c hm)
    · simp only [List.mem_cons] at hm
      rcases hm with rfl | hm
      · decide
      · exact not_whitespace_of_isDigit (hpadd c hm)
  unfold trimChars
  rw [List.dropWhile_cons, if_pos (by decide),
    dropWhile_eq_self_of_all _ _ hX,
    dropWhile_eq_self_of_all _ _ (fun c hcm => hX c (List.mem_reverse.mp hcm)),
    List.reverse_reverse]

/-- Counterexample to C4: the input `abc` has a non-numeric residue, but
`parsePrice` returns `NaN` (the bare `parseFloat` result), not the
positive infinity the claim asserts. -/
theorem claim_C4_counterexample :
    parsePrice (some "abc") = JVal.nan ∧ JVal.nan ≠ JVal.posinf := by
  constructor
  · decide
  · decide

/-- C4 amended: `parsePrice` never fails and returns positive infinity
for `null`, the empty string, and the literal `N/A`; a documented-format
localized money string parses to its exact numeric value; but an input
whose residue is non-numeric (here: any nonempty all-lowercase-ASCII
string) parses to `NaN`, not to infinity. -/
theorem claim_C4_amended_parse_price :
    (parsePrice none = JVal.posinf ∧ parsePrice (some "") = JVal.posinf ∧
      parsePrice (some "N/A") = JVal.posinf) ∧
    (∀ units cents : ℕ, cents < 100 →
      parsePrice (some (formatMoney units cents))
        = JVal.num ((units : ℚ) + (cents : ℚ) / 100)) ∧
    (∀ s : String, s.toList ≠ [] →
      (∀ c ∈ s.toList, 97 ≤ c.toNat ∧ c.toNat ≤ 122) →
      parsePrice (some s) = JVal.nan) := by
  refine ⟨⟨rfl, rfl, rfl⟩, ?_, ?_⟩
  · intro units cents hc
    have hne1 : formatMoney units cents ≠ "" := by
      intro h
      exact absurd (congrArg String.data h) (by simp [formatMoney])
    have hne2 : formatMoney units cents ≠ "N/A" := by
      intro h
      have hdata := congrArg String.data h
      simp only [formatMoney] at hdata
      injection hdata with h1 h2
      exact absurd h1 (by decide)
    have hstep : parsePrice (some (formatMoney units cents))
        = if formatMoney units cents = "" ∨ formatMoney units cents = "N/A"
          then JVal.posinf else parseFloat (transformPrice (formatMoney units cents)) := rfl
    rw [hstep, if_neg (by simp [hne1, hne2])]
    rw [transformPrice_formatMoney units cents hc,
      parseFloat_digits_point (natDigits units) (pad2 cents) (natDigits_ne_nil units)
        (natDigits_all_digits units) (pad2_all_digits hc)]
    rw [natOfDigits_natDigits, natOfDigits_pad2 hc,
      show (pad2 cents).length = 2 from rfl, decimalValue_nonneg_zero]
    push_cast
    ring
  · intro s hne hlow
    obtain ⟨c, t, hst⟩ : ∃ c t, s.toList = c :: t := by
      cases hl : s.toList with
      | nil => exact absurd hl hne
      | cons c t => exact ⟨c, t, rfl⟩
    have hc := hlow c (by rw [hst]; simp)
    have hsne1 : s ≠ "" := by
      intro h
      rw [h] at hst
      exact absurd hst (by simp)
    have hsne2 : s ≠ "N/A" := by
      intro h
      have := hlow 'N' (by rw [h]; decide)
      revert this
      decide
    have hnotdigit : ∀ x ∈ s.toList, x.isDigit = false := by
      intro x hx
      obtain ⟨hx1, hx2⟩ := hlow x hx
      rcases hd : x.isDigit with - | -
      · rfl
      · obtain ⟨-, h57⟩ := toNat_bounds_of_isDigit hd
        omega
    have hnotws : ∀ x ∈ s.toList, x.isWhitespace = false := fun x hx =>
      not_whitespace_of_toNat (by have := (hlow x hx).1; omega)
    have hnotchar : ∀ (y : Char), y.toNat < 97 → ∀ x ∈ s.toList, x ≠ y := by
      intro y hy x hx hxy
      subst hxy
      have := (hlow x hx).1
      omega
    have hstep : parsePrice (some s)
        = if s = "" ∨ s = "N/A" then JVal.posinf
          else parseFloat (transformPrice s) := rfl
    rw [hstep, if_neg (by simp [hsne1, hsne2])]
    unfold transformPrice
    rw [replaceFirstRS_eq_self s.toList (hnotchar '$' (by decide)),
      show removeDots s.toList = s.toList from
        List.filter_eq_self.mpr (fun x hx => by
          simpa using hnotchar '.' (by decide) x hx),
      replaceFirstComma_eq_self s.toList (hnotchar ',' (by decide)),
      trimChars_eq_self hnotws]
    unfold parseFloat
    rw [dropWhile_eq_self_of_all _ s.toList hnotws, hst]
    have hsign : splitSign (c :: t) = (false, c :: t) := by
      rw [splitSign, if_neg (hnotchar '+' (by decide) c (by rw [hst]; simp) ·),
        if_neg (hnotchar '-' (by decide) c (by rw [hst]; simp) ·)]
    rw [hsign]
    simp only
    have hinf : (c :: t).take 8 ≠ "Infinity".toList := by
      intro hcontra
      rw [show (8 : ℕ) = 7 + 1 from rfl, List.take_succ_cons] at hcontra
      have hcI : c = 'I' := by injection hcontra
      exact hnotchar 'I' (by decide) c (by rw [hst]; simp) hcI
    rw [if_neg hinf]
    have htw : (c :: t).takeWhile Char.isDigit = [] := by
      rw [List.takeWhile_cons, if_neg (by simp [hnotdigit c (by rw [hst]; simp)])]
    have hdw : (c :: t).dropWhile Char.isDigit = c :: t := by
      rw [List.dropWhile_cons, if_neg (by simp [hnotdigit c (by rw [hst]; simp)])]
    have hfrac : splitFrac (c :: t) = ([], c :: t) := by
      show (if c = '.' then (t.takeWhile Char.isDigit, t.dropWhile Char.isDigit)
          else ([], c :: t)) = ([], c :: t)
      rw [if_neg (hnotchar '.' (by decide) c (by rw [hst]; simp) ·)]
    rw [htw, hdw, hfrac]
    rw [if_pos ⟨rfl, rfl⟩]

/-- Witness for the amended C4: `R$ 1.234,56` parses to `1234.56`, and
the all-letter string `abc` parses to `NaN`. -/
theorem claim_C4_witness :
    parsePrice (some (formatMoney 1234 56)) = JVal.num ((1234 : ℚ) + (56 : ℚ) / 100) ∧
    parsePrice (some "abc") = JVal.nan :=
  ⟨claim_C4_amended_parse_price.2.1 1234 56 (by norm_num),
   claim_C4_amended_parse_price.2.2 "abc" (by decide) (by decide)⟩

/-! ### Order lemmas for the JS `<` comparison -/

theorem jlt_irrefl (a : JVal) : JVal.lt a a = false := by
  cases a <;> simp [JVal.lt]

theorem jlt_asymm {a b : JVal} (h : JVal.lt a b = true) : JVal.lt b a = false := by
  cases a <;> cases b <;> simp_all [JVal.lt]
  exact le_of_lt h

theorem jlt_trans {a b c : JVal} (hab : JVal.lt a b = true) (hbc : JVal.lt b c = true) :
    JVal.lt a c = true := by
  cases a <;> cases b <;> cases c <;> simp_all [JVal.lt]
  exact lt_trans hab hbc

theorem jlt_of_lt_of_not_lt {a b c : JVal} (hc : c ≠ JVal.nan)
    (hab : JVal.lt a b = true) (hcb : JVal.lt c b = false) :
    JVal.lt a c = true := by
  cases a <;> cases b <;> cases c <;> simp_all [JVal.lt]
  exact lt_of_lt_of_le hab hcb

/-! ### The `reduce` of `bestOffer` picks the first minimum -/

/-- The reduce result is the seed or one of the list elements. -/
theorem foldl_bestOfferStep_mem :
    ∀ (l : List ProductStore) (b : ProductStore),
      l.foldl bestOfferStep b ∈ b :: l
  | [], b => by simp
  | c :: t, b => by
    rw [List.foldl_cons]
    by_cases hcb : JVal.lt (parsePrice c.currentPrice) (parsePrice b.currentPrice) = true
    · have hstep : bestOfferStep b c = c := by
        unfold bestOfferStep
        rw [if_pos hcb]
      rw [hstep]
      have h := foldl_bestOfferStep_mem t c
      simp only [List.mem_cons] at h ⊢
      tauto
    · have hstep : bestOfferStep b c = b := by
        unfold bestOfferStep
        rw [if_neg hcb]
      rw [hstep]
      have h := foldl_bestOfferStep_mem t b
      simp only [List.mem_cons] at h ⊢
      tauto

/-- Full characterisation of the reduce: when no price parses to `NaN`,
the result is the seed if nothing is strictly below it, and otherwise
the first list element of minimal parsed price, with every earlier
element strictly greater. -/
theorem foldl_bestOfferStep_spec :
    ∀ (l : List ProductStore) (b : ProductStore),
      parsePrice b.currentPrice ≠ JVal.nan →
      (∀ s ∈ l, parsePrice s.currentPrice ≠ JVal.nan) →
      (l.foldl bestOfferStep b = b ∧
        ∀ s ∈ l, JVal.lt (parsePrice s.currentPrice) (parsePrice b.currentPrice) = false)
      ∨ (∃ i : ℕ, ∃ hi : i < l.length,
          l.foldl bestOfferStep b = l.get ⟨i, hi⟩ ∧
          JVal.lt (parsePrice (l.get ⟨i, hi⟩).currentPrice)
            (parsePrice b.currentPrice) = true ∧
          (∀ s ∈ l, JVal.lt (parsePrice s.currentPrice)
            (parsePrice (l.get ⟨i, hi⟩).currentPrice) = false) ∧
          (∀ j : ℕ, ∀ hj : j < l.length, j < i →
            JVal.lt (parsePrice (l.get ⟨i, hi⟩).currentPrice)
              (parsePrice (l.get ⟨j, hj⟩).currentPrice) = true))
  | [], b, _, _ => Or.inl ⟨rfl, by simp⟩
  | c :: t, b, hb, hl => by
    have hc : parsePrice c.currentPrice ≠ JVal.nan := hl c (by simp)
    have ht : ∀ s ∈ t, parsePrice s.currentPrice ≠ JVal.nan :=
      fun s hs => hl s (by simp [hs])
    rw [List.foldl_cons]
    by_cases hcb : JVal.lt (parsePrice c.currentPrice) (parsePrice b.currentPrice) = true
    · have hstep : bestOfferStep b c = c := by
        unfold bestOfferStep
        rw [if_pos hcb]
      rw [hstep]
      rcases foldl_bestOfferStep_spec t c hc ht with ⟨heq, hmin⟩ | ⟨i, hi, heq, hlt, hmin, hbef⟩
      · refine Or.inr ⟨0, by simp, ?_, ?_, ?_, ?_⟩
        · simpa using heq
        · simpa using hcb
        · intro s hs
          simp only [List.get]
          simp only [List.mem_cons] at hs
          rcases hs with rfl | hs
          · exact jlt_irrefl _
          · exact hmin s hs
        · intro j hj hj0
          omega
      · refine Or.inr ⟨i + 1, by simpa using Nat.succ_lt_succ hi, ?_, ?_, ?_, ?_⟩
        · simpa using heq
        · exact jlt_trans hlt hcb
        · intro s hs
          simp only [List.get_cons_succ]
          simp only [List.mem_cons] at hs
          rcases hs with rfl | hs
          · exact jlt_asymm hlt
          · exact hmin s hs
        · intro j hj hji
          cases j with
          | zero => simpa using hlt
          | succ j2 =>
            simp only [List.get_cons_succ]
            exact hbef j2 (by omega) (by omega)
    · have hstep : bestOfferStep b c = b := by
        unfold bestOfferStep
        rw [if_neg hcb]
      rw [hstep]
      have hcbf : JVal.lt (parsePrice c.currentPrice) (parsePrice b.currentPrice) = false :=
        Bool.not_eq_true _ ▸ Bool.of_not_eq_true hcb
      rcases foldl_bestOfferStep_spec t b hb ht with ⟨heq, hmin⟩ | ⟨i, hi, heq, hlt, hmin, hbef⟩
      · refine Or.inl ⟨heq, ?_⟩
        intro s hs
        simp only [List.mem_cons] at hs
        rcases hs with rfl | hs
        · exact hcbf
        · exact hmin s hs
      · have hic : JVal.lt (parsePrice (t.get ⟨i, hi⟩).currentPrice)
            (parsePrice c.currentPrice) = true :=
          jlt_of_lt_of_not_lt hc hlt hcbf
        refine Or.inr ⟨i + 1, by simpa using Nat.succ_lt_succ hi, ?_, ?_, ?_, ?_⟩
        · simpa using heq
        · simpa using hlt
        · intro s hs
          simp only [List.get_cons_succ]
          simp only [List.mem_cons] at hs
          rcases hs with rfl | hs
          · exact jlt_asymm hic
          · exact hmin s hs
        · intro j hj hji
          cases j with
          | zero => simpa using hic
          | succ j2 =>
            simp only [List.get_cons_succ]
            exact hbef j2 (by omega) (by omega)

/-- Counterexample to C7: with one qualifying store whose price string
`abc` parses to `NaN` and another qualifying store at `R$5,00`,
`bestOffer` returns the `NaN` store — which is not the store with the
lowest parsed price, since its price is neither below nor equal to the
other's finite `5`. -/
theorem claim_C7_counterexample :
    bestOffer
      { productName := "p", imageUrl := "i", originalUrl := "u", affiliateIds := none
        stores := [{ name := .amazon, currentPrice := some "abc",
                     url := some "http://a", priceHistory := [] },
                   { name := .mercadoLivre, currentPrice := some "R$5,00",
                     url := some "http://b", priceHistory := [] }] }
      = some { name := .amazon, currentPrice := some "abc",
               url := some "http://a", priceHistory := [] } ∧
    validStore { name := .mercadoLivre, currentPrice := some "R$5,00",
                 url := some "http://b", priceHistory := [] } = true ∧
    parsePrice (some "abc") = JVal.nan ∧
    parsePrice (some "R$5,00") = JVal.num 5 ∧
    JVal.lt (parsePrice (some "abc")) (parsePrice (some "R$5,00")) = false ∧
    parsePrice (some "abc") ≠ parsePrice (some "R$5,00") := by
  refine ⟨by decide, by decide, by decide, by decide, by decide, by decide⟩

/-- C7 amended: `bestOffer` only ever returns a store passing the
qualification filter; it returns `none` exactly when no store
qualifies; and provided every qualifying store's price parses to a
non-`NaN` value, the returned store is the first qualifying store of
minimal parsed price (nothing is strictly below it, and every earlier
qualifying store is strictly above it).  With a `NaN`-parsing
qualifying price the reduce keeps the earlier store, so minimality can
fail. -/
theorem claim_C7_amended_best_offer (p : Product) :
    (∀ r : ProductStore, bestOffer p = some r → validStore r = true) ∧
    (bestOffer p = none ↔ ∀ s ∈ p.stores, validStore s = false) ∧
    ((∀ s ∈ p.stores.filter validStore, parsePrice s.currentPrice ≠ JVal.nan) →
      ∀ r : ProductStore, bestOffer p = some r →
        ∃ i : ℕ, ∃ hi : i < (p.stores.filter validStore).length,
          r = (p.stores.filter validStore).get ⟨i, hi⟩ ∧
          (∀ s ∈ p.stores.filter validStore,
            JVal.lt (parsePrice s.currentPrice) (parsePrice r.currentPrice) = false) ∧
          ∀ j : ℕ, ∀ hj : j < (p.stores.filter validStore).length, j < i →
            JVal.lt (parsePrice r.currentPrice)
              (parsePrice ((p.stores.filter validStore).get ⟨j, hj⟩).currentPrice) = true) := by
  have hbo : bestOffer p = match p.stores.filter validStore with
    | [] => none
    | b :: rest => some (rest.foldl bestOfferStep b) := rfl
  refine ⟨?_, ?_, ?_⟩
  · intro r hr
    cases hvs : p.stores.filter validStore with
    | nil =>
      rw [hvs] at hbo
      rw [hbo] at hr
      exact absurd hr (by simp)
    | cons b rest =>
      rw [hvs] at hbo
      rw [hbo] at hr
      injection hr with hr2
      have hmem := foldl_bestOfferStep_mem rest b
      rw [hr2] at hmem
      have hrf : r ∈ p.stores.filter validStore := by
        rw [hvs]
        exact hmem
      exact (List.mem_filter.mp hrf).2
  · cases hvs : p.stores.filter validStore with
    | nil =>
      rw [hvs] at hbo
      constructor
      · intro _ s hs
        have := List.filter_eq_nil_iff.mp hvs s hs
        simpa using this
      · intro _
        exact hbo
    | cons b rest =>
      rw [hvs] at hbo
      constructor
      · intro hnone
        rw [hbo] at hnone
        exact absurd hnone (by simp)
      · intro hall
        exfalso
        have hbmem : b ∈ p.stores.filter validStore := by
          rw [hvs]
          simp
        obtain ⟨hbs, hbv⟩ := List.mem_filter.mp hbmem
        rw [hall b hbs] at hbv
        exact absurd hbv (by simp)
  · intro hnn r hr
    cases hvs : p.stores.filter validStore with
    | nil =>
      rw [hvs] at hbo
      rw [hbo] at hr
      exact absurd hr (by simp)
    | cons b rest =>
      rw [hvs] at hbo
      rw [hbo] at hr
      injection hr with hr2
      simp only [hvs] at hnn ⊢
      have hb : parsePrice b.currentPrice ≠ JVal.nan := hnn b (by simp)
      have hrest : ∀ s ∈ rest, parsePrice s.currentPrice ≠ JVal.nan :=
        fun s hs => hnn s (by simp [hs])
      rcases foldl_bestOfferStep_spec rest b hb hrest with
        ⟨heq, hmin⟩ | ⟨i, hi, heq, hlt, hmin, hbef⟩
      · obtain rfl : b = r := by rw [← hr2, heq]
        refine ⟨0, by simp, rfl, ?_, ?_⟩
        · intro s hs
          simp only [List.mem_cons] at hs
          rcases hs with rfl | hs
          · exact jlt_irrefl _
          · exact hmin s hs
        · intro j hj hj0
          omega
      · obtain rfl : rest.get ⟨i, hi⟩ = r := by rw [← hr2, heq]
        refine ⟨i + 1, by simpa using Nat.succ_lt_succ hi, by simp, ?_, ?_⟩
        · intro s hs
          simp only [List.mem_cons] at hs
          rcases hs with rfl | hs
          · exact jlt_asymm hlt
          · exact hmin s hs
        · intro j hj hji
          cases j with
          | zero => simpa using hlt
          | succ j2 =>
            simp only [List.get_cons_succ]
            exact hbef j2 (by omega) (by omega)

/-- Concrete product used to witness the amended C7. -/
def bestOfferWitnessProduct : Product :=
  { productName := "p", imageUrl := "i", originalUrl := "u", affiliateIds := none
    stores := [{ name := .amazon, currentPrice := some "R$9,00",
                 url := some "http://a", priceHistory := [] },
               { name := .mercadoLivre, currentPrice := some "R$5,00",
                 url := some "http://b", priceHistory := [] }] }

/-- Witness for the amended C7: on two finite-priced qualifying stores
the returned store qualifies and is the unique minimum (`R$5,00`). -/
theorem claim_C7_witness :
    validStore { name := StoreName.mercadoLivre, currentPrice := some "R$5,00",
                 url := some "http://b", priceHistory := [] } = true ∧
    ∃ i : ℕ, ∃ hi : i < (bestOfferWitnessProduct.stores.filter validStore).length,
      ({ name := StoreName.mercadoLivre, currentPrice := some "R$5,00",
         url := some "http://b", priceHistory := [] } : ProductStore)
        = (bestOfferWitnessProduct.stores.filter validStore).get ⟨i, hi⟩ ∧
      (∀ s ∈ bestOfferWitnessProduct.stores.filter validStore,
        JVal.lt (parsePrice s.currentPrice)
          (parsePrice (some "R$5,00")) = false) ∧
      ∀ j : ℕ, ∀ hj : j < (bestOfferWitnessProduct.stores.filter validStore).length, j < i →
        JVal.lt (parsePrice (some "R$5,00"))
          (parsePrice ((bestOfferWitnessProduct.stores.filter validStore).get
            ⟨j, hj⟩).currentPrice) = true :=
  ⟨(claim_C7_amended_best_offer bestOfferWitnessProduct).1 _ (by decide),
   (claim_C7_amended_best_offer bestOfferWitnessProduct).2.2 (by decide) _ (by decide)⟩

/-- `find?` after `setParams` always finds the freshly set pair. -/
theorem find_setParams (key value : List Char) :
    ∀ ps : List (List Char × List Char),
      (setParams key value ps).find? (fun p => p.1 = key) = some (key, value)
  | [] => by simp [setParams]
  | kv :: rest => by
    rw [setParams]
    by_cases hk : kv.1 = key
    · rw [if_pos hk]
      rw [List.find?_cons_of_pos _ (by simp)]
    · rw [if_neg hk]
      rw [List.find?_cons_of_neg _ (by simp [hk])]
      exact find_setParams key value rest

/-- After `searchParams.set(key, value)` the parameter reads back as
`value`. -/
theorem getParam_setParam (u : UrlModel) (key value : List Char) :
    getParam (setParam u key value) key = some value := by
  unfold getParam setParam
  rw [find_setParams]
  rfl

/-- C9: the affiliate transform is total (it is a plain function of its
inputs — the `try`/`catch` of the source is the `parseUrl` option) and:
it returns the URL unchanged when the resolved identifier is absent or
empty, when the URL is empty or the `N/A` sentinel, or when the URL
fails to parse; otherwise it returns the parsed URL re-serialised with
the store-specific parameter (`tag` for Amazon, `afid` for Mercado
Livre) set to the identifier. -/
theorem claim_C9_affiliate_url (g : AffiliateIds) (url : String)
    (storeName : StoreName) (pids : Option AffiliateIds) :
    ((resolveAffiliateId g pids storeName = none ∨
        resolveAffiliateId g pids storeName = some "" ∨
        url = "" ∨ url = "N/A") →
      constructAffiliateUrl g url storeName pids = url) ∧
    (parseUrl url = none → constructAffiliateUrl g url storeName pids = url) ∧
    (∀ idStr : String, resolveAffiliateId g pids storeName = some idStr → idStr ≠ "" →
      url ≠ "" → url ≠ "N/A" →
      ∀ u : UrlModel, parseUrl url = some u →
        constructAffiliateUrl g url storeName pids
          = urlToString (setParam u (affiliateParamKey storeName) idStr.toList) ∧
        getParam (setParam u (affiliateParamKey storeName) idStr.toList)
          (affiliateParamKey storeName) = some idStr.toList) := by
  refine ⟨?_, ?_, ?_⟩
  · intro h
    unfold constructAffiliateUrl
    rcases hid : resolveAffiliateId g pids storeName with - | idStr
    · rfl
    · show (if idStr = "" ∨ url = "" ∨ url = "N/A" then url
          else match parseUrl url with
            | none => url
            | some urlObject =>
              urlToString (setParam urlObject (affiliateParamKey storeName) idStr.toList)) = url
      rcases h with h | h | h | h
      · rw [hid] at h
        exact absurd h (by simp)
      · rw [hid] at h
        injection h with h2
        rw [if_pos (Or.inl h2)]
      · rw [if_pos (Or.inr (Or.inl h))]
      · rw [if_pos (Or.inr (Or.inr h))]
  · intro hparse
    unfold constructAffiliateUrl
    rcases hid : resolveAffiliateId g pids storeName with - | idStr
    · rfl
    · show (if idStr = "" ∨ url = "" ∨ url = "N/A" then url
          else match parseUrl url with
            | none => url
            | some urlObject =>
              urlToString (setParam urlObject (affiliateParamKey storeName) idStr.toList)) = url
      by_cases hcond : idStr = "" ∨ url = "" ∨ url = "N/A"
      · rw [if_pos hcond]
      · rw [if_neg hcond, hparse]
  · intro idStr hid hne1 hne2 hne3 u hu
    unfold constructAffiliateUrl
    rw [hid]
    show (if idStr = "" ∨ url = "" ∨ url = "N/A" then url
        else match parseUrl url with
          | none => url
          | some urlObject =>
            urlToString (setParam urlObject (affiliateParamKey storeName) idStr.toList)) = _
      ∧ _
    rw [if_neg (by simp [hne1, hne2, hne3]), hu]
    exact ⟨rfl, getParam_setParam u (affiliateParamKey storeName) idStr.toList⟩

/-- Witness for C9: a global Amazon id on a URL with an existing query
parameter — the transform appends `tag`, and the sentinel URL passes
through unchanged. -/
theorem claim_C9_witness :
    (constructAffiliateUrl ⟨some "aff-20", some "ml-id"⟩ "https://x.com/a?b=1" .amazon none
        = urlToString (setParam ⟨"https://x.com/a".toList, [("b".toList, "1".toList)], none⟩
            (affiliateParamKey .amazon) "aff-20".toList) ∧
      getParam (setParam ⟨"https://x.com/a".toList, [("b".toList, "1".toList)], none⟩
          (affiliateParamKey .amazon) "aff-20".toList) (affiliateParamKey .amazon)
        = some "aff-20".toList) ∧
    constructAffiliateUrl ⟨some "aff-20", some "ml-id"⟩ "N/A" .amazon none = "N/A" :=
  ⟨(claim_C9_affiliate_url ⟨some "aff-20", some "ml-id"⟩ "https://x.com/a?b=1" .amazon none).2.2
      "aff-20" (by decide) (by decide) (by decide) (by decide)
      ⟨"https://x.com/a".toList, [("b".toList, "1".toList)], none⟩ (by decide),
   (claim_C9_affiliate_url ⟨some "aff-20", some "ml-id"⟩ "N/A" .amazon none).1
      (Or.inr (Or.inr (Or.inr rfl)))⟩

end Shopping
